import Mathlib

/-!
Verification of the data-handling core of `pysster` (`src/pysster/Data.py`)
against its natural-language specification.

The Python code is shallowly embedded: numpy arrays become `List ℕ` /
`List ℚ`, the numpy global random state becomes an explicit state value
threaded through an abstract model (`NpRandom`), Python `int()` becomes
truncation toward zero on exact rationals, and Python exceptions become
`Except`.  Each definition mirrors one function (or one statement block)
of `Data.py`; the line numbers are given in the doc comments.
-/

namespace Pysster

/-- Python `int()` applied to a real quantity: truncation toward zero.
For nonnegative arguments this coincides with the floor. -/
def pyTrunc (q : ℚ) : ℤ :=
  if 0 ≤ q then ⌊q⌋ else -⌊-q⌋

/-- The stored split assignment `self.splits` (Data.py line 138):
three index arrays keyed by "train", "val" and "test". -/
structure Splits where
  train : List ℕ
  val : List ℕ
  test : List ℕ
deriving DecidableEq

/-- `np.split(arr, [a, b])` (Data.py line 137): the three contiguous
slices `arr[0:a]`, `arr[a:b]`, `arr[b:]`.  Python slice clamping for
nonnegative cut points is exactly `List.take`/`List.drop` clamping
(negative cut points never arise under the preconditions used below). -/
def npSplit3 (arr : List ℕ) (a b : ℕ) : Splits :=
  { train := arr.take a
    val := (arr.drop a).take (b - a)
    test := arr.drop b }

/-- `Data.train_val_test_split` (Data.py lines 113-138), with the random
permutation `np.random.permutation(np.arange(num_sequences))` passed in
explicitly as `perm` (the seeding of the global RNG is modelled separately
by `train_val_test_split_rng` below).  `num_sequences = len(self.data)`
equals `perm.length` because the permutation ranges over all records. -/
def train_val_test_split (perm : List ℕ) (portion_train portion_val : ℚ) : Splits :=
  let num_sequences : ℕ := perm.length
  let break_train : ℕ := (pyTrunc ((num_sequences : ℚ) * portion_train)).toNat
  let break_val : ℕ := (pyTrunc ((num_sequences : ℚ) * (portion_train + portion_val))).toNat
  npSplit3 perm break_train break_val

/-- `Data.train_val_test_split` viewed through an exception monad.  The
body of the Python function (lines 113-138) contains no `raise` statement
and no validation of the portions, so every execution returns normally;
an `Except.error` would correspond to a raised exception. -/
def train_val_test_splitE (perm : List ℕ) (portion_train portion_val : ℚ) :
    Except String Splits :=
  Except.ok (train_val_test_split perm portion_train portion_val)

/-- Did the embedded computation raise an exception? -/
def isExceptError {ε α : Type} : Except ε α → Bool
  | Except.error _ => true
  | Except.ok _ => false

/-- The three slices produced by `np.split(arr, [a, b])` concatenate back
to the original array whenever the cut points are ordered. -/
theorem npSplit3_append (arr : List ℕ) (a b : ℕ) (hab : a ≤ b) :
    (npSplit3 arr a b).train ++ ((npSplit3 arr a b).val ++ (npSplit3 arr a b).test) = arr := by
  simp only [npSplit3]
  have h1 : arr.drop b = (arr.drop a).drop (b - a) := by
    rw [List.drop_drop]
    congr 1
    omega
  rw [h1, List.take_append_drop, List.take_append_drop]

/-- C1: for every dataset of `N` records and every split call with
nonnegative portions summing to at most 1, the permutation of
`{0,…,N-1}` is cut at `⌊N·portion_train⌋` and `⌊N·(portion_train +
portion_val)⌋` into three contiguous slices: the three index sets are
pairwise disjoint, their union is `{0,…,N-1}`, the training slice has
exactly `⌊N·portion_train⌋` elements, and the three sizes sum to `N`. -/
theorem train_val_test_split_partition (N : ℕ) (perm : List ℕ) (pt pv : ℚ)
    (hperm : perm.Perm (List.range N)) (hpt : 0 ≤ pt) (hpv : 0 ≤ pv) (hsum : pt + pv ≤ 1) :
    ((train_val_test_split perm pt pv).train.Disjoint (train_val_test_split perm pt pv).val ∧
      (train_val_test_split perm pt pv).train.Disjoint (train_val_test_split perm pt pv).test ∧
      (train_val_test_split perm pt pv).val.Disjoint (train_val_test_split perm pt pv).test) ∧
    (∀ i : ℕ, (i ∈ (train_val_test_split perm pt pv).train ∨
        i ∈ (train_val_test_split perm pt pv).val ∨
        i ∈ (train_val_test_split perm pt pv).test) ↔ i < N) ∧
    (train_val_test_split perm pt pv).train.length = (⌊(N : ℚ) * pt⌋).toNat ∧
    (train_val_test_split perm pt pv).train.length +
        (train_val_test_split perm pt pv).val.length +
        (train_val_test_split perm pt pv).test.length = N := by
  set s := train_val_test_split perm pt pv with hs
  have hL : perm.length = N := by simpa using hperm.length_eq
  have hLQ : ((perm.length : ℚ)) = (N : ℚ) := by exact_mod_cast hL
  have hpt1 : pt ≤ 1 := by linarith
  have hNpt : (0 : ℚ) ≤ (N : ℚ) * pt := mul_nonneg (by positivity) hpt
  have hNptv : (0 : ℚ) ≤ (N : ℚ) * (pt + pv) := mul_nonneg (by positivity) (by linarith)
  have hta : pyTrunc ((perm.length : ℚ) * pt) = ⌊(N : ℚ) * pt⌋ := by
    rw [hLQ, pyTrunc, if_pos hNpt]
  have htb : pyTrunc ((perm.length : ℚ) * (pt + pv)) = ⌊(N : ℚ) * (pt + pv)⌋ := by
    rw [hLQ, pyTrunc, if_pos hNptv]
  have hse : s = npSplit3 perm (pyTrunc ((perm.length : ℚ) * pt)).toNat
      (pyTrunc ((perm.length : ℚ) * (pt + pv))).toNat := rfl
  rw [hta, htb] at hse
  have hab : (⌊(N : ℚ) * pt⌋).toNat ≤ (⌊(N : ℚ) * (pt + pv)⌋).toNat := by
    apply Int.toNat_le_toNat
    apply Int.floor_le_floor
    have : (0 : ℚ) ≤ (N : ℚ) := by positivity
    nlinarith
  have haN : (⌊(N : ℚ) * pt⌋).toNat ≤ N := by
    rw [Int.toNat_le]
    calc ⌊(N : ℚ) * pt⌋ ≤ ⌊(N : ℚ)⌋ := by
          apply Int.floor_le_floor
          have : (0 : ℚ) ≤ (N : ℚ) := by positivity
          nlinarith
    _ = (N : ℤ) := by exact_mod_cast Int.floor_natCast N
  have hbN : (⌊(N : ℚ) * (pt + pv)⌋).toNat ≤ N := by
    rw [Int.toNat_le]
    calc ⌊(N : ℚ) * (pt + pv)⌋ ≤ ⌊(N : ℚ)⌋ := by
          apply Int.floor_le_floor
          have : (0 : ℚ) ≤ (N : ℚ) := by positivity
          nlinarith
    _ = (N : ℤ) := by exact_mod_cast Int.floor_natCast N
  have happ : s.train ++ (s.val ++ s.test) = perm := by
    rw [hse]
    exact npSplit3_append perm _ _ hab
  have hnodup : (s.train ++ (s.val ++ s.test)).Nodup := by
    rw [happ]
    exact hperm.nodup_iff.mpr (List.nodup_range N)
  obtain ⟨hnd1, hnd2, hdisj1⟩ := List.nodup_append.mp hnodup
  obtain ⟨hnd3, hnd4, hdisj2⟩ := List.nodup_append.mp hnd2
  obtain ⟨hdtv, hdtt⟩ := List.disjoint_append_right.mp hdisj1
  refine ⟨⟨hdtv, hdtt, hdisj2⟩, ?_, ?_, ?_⟩
  · intro i
    have hmem : i ∈ perm ↔ i < N := by
      rw [hperm.mem_iff, List.mem_range]
    rw [← hmem, ← happ]
    simp [List.mem_append, or_assoc]
  · have : s.train = perm.take (⌊(N : ℚ) * pt⌋).toNat := by rw [hse]; rfl
    rw [this, List.length_take, hL]
    omega
  · have := congrArg List.length happ
    simp only [List.length_append] at this
    rw [hL] at this
    omega

/-- Concrete instance of the split partition theorem: `N = 2`,
`perm = [1, 0]`, `portion_train = 1/2`, `portion_val = 1/4`. -/
theorem train_val_test_split_partition_witness :
    ((train_val_test_split [1, 0] (1/2) (1/4)).train.Disjoint
        (train_val_test_split [1, 0] (1/2) (1/4)).val ∧
      (train_val_test_split [1, 0] (1/2) (1/4)).train.Disjoint
        (train_val_test_split [1, 0] (1/2) (1/4)).test ∧
      (train_val_test_split [1, 0] (1/2) (1/4)).val.Disjoint
        (train_val_test_split [1, 0] (1/2) (1/4)).test) ∧
    (∀ i : ℕ, (i ∈ (train_val_test_split [1, 0] (1/2) (1/4)).train ∨
        i ∈ (train_val_test_split [1, 0] (1/2) (1/4)).val ∨
        i ∈ (train_val_test_split [1, 0] (1/2) (1/4)).test) ↔ i < 2) ∧
    (train_val_test_split [1, 0] (1/2) (1/4)).train.length = (⌊(2 : ℚ) * (1/2)⌋).toNat ∧
    (train_val_test_split [1, 0] (1/2) (1/4)).train.length +
        (train_val_test_split [1, 0] (1/2) (1/4)).val.length +
        (train_val_test_split [1, 0] (1/2) (1/4)).test.length = 2 :=
  train_val_test_split_partition 2 [1, 0] (1/2) (1/4) (by decide)
    (by norm_num) (by norm_num) (by norm_num)

/-- C4 counterexample: calling the split operation with
`portion_train = 0.7` and `portion_val = 0.7` (sum `1.4 > 1`) on a
4-record dataset raises no error at all: the function body performs no
validation of the portions. -/
theorem split_no_error_on_excess_portions :
    ((7/10 : ℚ) + 7/10 > 1) ∧
    isExceptError (train_val_test_splitE [0, 1, 2, 3] (7/10) (7/10)) = false := by
  constructor
  · norm_num
  · rfl

/-- C4 amended: the split operation never raises an error, whatever the
portions are; there is no validation of `portion_train + portion_val`. -/
theorem split_never_raises (perm : List ℕ) (pt pv : ℚ) :
    isExceptError (train_val_test_splitE perm pt pv) = false := rfl

/-- Abstract model of the numpy global random state (`np.random`), as
used by `Data.py`: a state type `σ` with reseeding
(`np.random.seed(s)` for an integer `s`, `entropyFn` for
`np.random.seed(None)` which reseeds from OS entropy),
`np.random.permutation(np.arange(n))` (`permutationFn`), and
`np.random.shuffle`.  An in-place numpy shuffle is a Fisher-Yates pass
whose sequence of swaps depends only on the state and the array length,
i.e. it applies a positional rearrangement `shufflePerm st n` (a
permutation of `range n`, as the field `shufflePerm_perm` records) to
the array contents and advances the state to `shuffleNext st n`. -/
structure NpRandom (σ : Type) where
  seedFn : ℤ → σ
  entropyFn : σ → σ
  permutationFn : σ → ℕ → List ℕ × σ
  shufflePerm : σ → ℕ → List ℕ
  shuffleNext : σ → ℕ → σ
  shufflePerm_perm : ∀ st n, (shufflePerm st n).Perm (List.range n)

/-- Rearranging a list by a positional permutation `p`: entry `j` of the
result is entry `p[j]` of the input (how `np.random.shuffle` acts, seen
through `NpRandom.shufflePerm`). -/
def applyPositional (p : List ℕ) (l : List ℕ) : List ℕ :=
  p.map (fun i => l.getD i 0)

/-- `Data.train_val_test_split` (Data.py lines 113-138) with the numpy
global state threaded explicitly.  Mirrors the body exactly: `if seed:`
is Python truthiness, so the RNG is reseeded only when `seed` is neither
`None` nor `0`; then `np.random.permutation(np.arange(num_sequences))`
is drawn and cut by `np.split`. -/
def train_val_test_split_rng {σ : Type} (R : NpRandom σ) (num_sequences : ℕ)
    (seed : Option ℤ) (pt pv : ℚ) (st : σ) : Splits × σ :=
  let st1 : σ := match seed with
    | some s => if s = 0 then st else R.seedFn s
    | none => st
  let pr := R.permutationFn st1 num_sequences
  (npSplit3 pr.1 ((pyTrunc ((num_sequences : ℚ) * pt)).toNat)
    ((pyTrunc ((num_sequences : ℚ) * (pt + pv))).toNat), pr.2)

/-- A small concrete instance of `NpRandom`, used to evaluate the code
on concrete inputs: the state is a counter, `permutationFn` returns the
identity or the reversed range depending on the counter's parity and
advances the counter (so, like the real numpy state, consecutive draws
differ), and shuffling rotates the array by one position. -/
def demoRng : NpRandom ℕ where
  seedFn s := s.toNat
  entropyFn st := st
  permutationFn st n := (if st % 2 = 0 then List.range n else (List.range n).reverse, st + 1)
  shufflePerm _ n := (List.range n).rotate 1
  shuffleNext st _ := st + 1
  shufflePerm_perm _ n := List.rotate_perm (List.range n) 1

/-- C5: evaluating `Data.train_val_test_split` at the failing input
`seed = 0`.  Because the guard is `if seed:` (Python truthiness) rather
than `if seed is not None:`, `np.random.seed(0)` is never executed, the
global RNG state simply advances, and two back-to-back calls with
`seed = 0` return different splits — while for a nonzero seed (here 3)
the same two back-to-back calls return identical splits. -/
theorem split_seed_zero_not_reproducible :
    (let r1 := train_val_test_split_rng demoRng 2 (some 0) (1/2) (1/4) 0
     let r2 := train_val_test_split_rng demoRng 2 (some 0) (1/2) (1/4) r1.2
     r1.1 ≠ r2.1) ∧
    (let s1 := train_val_test_split_rng demoRng 2 (some 3) (1/2) (1/4) 0
     let s2 := train_val_test_split_rng demoRng 2 (some 3) (1/2) (1/4) s1.2
     s1.1 = s2.1) := by
  refine ⟨?_, ?_⟩ <;>
    norm_num [train_val_test_split_rng, demoRng, npSplit3, pyTrunc, List.range_succ]

/-- `n_classes = max(max(entry) for entry in self.labels) + 1`
(Data.py line 310).  `foldr max 0` agrees with Python `max` on every
nonempty list of naturals; Python raises on an empty list, which is why
the label theorem below assumes every entry (and the list of records)
is nonempty. -/
def n_classes (labels : List (List ℕ)) : ℕ :=
  (labels.map (fun entry => entry.foldr max 0)).foldr max 0 + 1

/-- The numpy fancy assignment `label[entry] = 1` (Data.py line 313):
position `j` is overwritten with `1` for each `j` in `entry`, in order.
(`List.set` ignores an out-of-range index where numpy would raise, but
every index written by `_process_labels` is below `n_classes`, as proved
below.) -/
def setOnes (v : List ℕ) (entry : List ℕ) : List ℕ :=
  entry.foldl (fun w j => w.set j 1) v

/-- One record's processed label vector (Data.py lines 312-313):
`label = np.zeros(n_classes)` followed by `label[entry] = 1`. -/
def labelVector (n : ℕ) (entry : List ℕ) : List ℕ :=
  setOnes (List.replicate n 0) entry

/-- `Data._process_labels` (Data.py lines 309-314): every raw
label-index list is replaced by its binary membership vector of width
`n_classes`. -/
def process_labels (labels : List (List ℕ)) : List (List ℕ) :=
  labels.map (labelVector (n_classes labels))

/-- The specification's formulation of the class count: the maximum
index across all records and all their listed indices (spec section
4.3: `num_classes = 1 + max(index across all records and all their
listed indices)`). -/
def globalMaxLabel (labels : List (List ℕ)) : ℕ :=
  labels.flatten.foldr max 0

theorem le_foldr_max {a : ℕ} {l : List ℕ} (h : a ∈ l) : a ≤ l.foldr max 0 := by
  induction l with
  | nil => cases h
  | cons b t ih =>
    rcases List.mem_cons.mp h with rfl | h'
    · exact le_max_left _ _
    · exact le_trans (ih h') (le_max_right _ _)

theorem foldr_max_append (l₁ l₂ : List ℕ) :
    (l₁ ++ l₂).foldr max 0 = max (l₁.foldr max 0) (l₂.foldr max 0) := by
  induction l₁ with
  | nil => simp
  | cons b t ih => simp [ih, max_assoc]

/-- The nested maximum computed by the source equals the flat maximum
over all listed indices used by the specification. -/
theorem n_classes_eq_globalMax (labels : List (List ℕ)) :
    n_classes labels = globalMaxLabel labels + 1 := by
  unfold n_classes globalMaxLabel
  congr 1
  induction labels with
  | nil => simp
  | cons e t ih =>
    simp only [List.map_cons, List.flatten_cons, List.foldr_cons]
    rw [ih, foldr_max_append]

theorem setOnes_length (v entry : List ℕ) : (setOnes v entry).length = v.length := by
  induction entry generalizing v with
  | nil => rfl
  | cons j t ih =>
    rw [show setOnes v (j :: t) = setOnes (v.set j 1) t from rfl]
    rw [ih (v.set j 1), List.length_set]

theorem setOnes_getElem (v entry : List ℕ) (hb : ∀ j ∈ entry, j < v.length)
    (i : ℕ) (hi : i < v.length) :
    (setOnes v entry).get ⟨i, by rw [setOnes_length]; exact hi⟩ =
      if i ∈ entry then 1 else v.get ⟨i, hi⟩ := by
  induction entry generalizing v with
  | nil => simp [setOnes]
  | cons j t ih =>
    have hjv : j < v.length := hb j (List.mem_cons_self j t)
    have hb' : ∀ x ∈ t, x < (v.set j 1).length := by
      intro x hx
      rw [List.length_set]
      exact hb x (List.mem_cons_of_mem j hx)
    have hi' : i < (v.set j 1).length := by rwa [List.length_set]
    have := ih (v.set j 1) hb' hi'
    simp only [setOnes, List.foldl_cons] at this ⊢
    rw [this]
    by_cases hmem : i ∈ t
    · simp [hmem, List.mem_cons]
    · by_cases hij : i = j
      · subst hij
        have hset : (v.set i 1).get ⟨i, hi'⟩ = 1 := by
          simp [List.getElem_set]
        simp [hmem, hset, List.mem_cons]
      · have hset : (v.set j 1)[i] = v[i] := by
          rw [List.getElem_set]
          simp [Ne.symm hij]
        simp [hmem, hij, hset, List.mem_cons]

/-- C2: after `_process_labels`, every record's label vector has length
`1 +` the maximum class index listed across all records, holds a `1` at
exactly the indices in that record's raw label-index list and `0`
everywhere else.  The nonemptiness hypotheses mirror Python's `max`,
which raises on an empty sequence. -/
theorem process_labels_spec (labels : List (List ℕ))
    (h0 : labels ≠ []) (hne : ∀ e ∈ labels, e ≠ []) :
    List.Forall₂
      (fun entry vec =>
        vec.length = 1 + globalMaxLabel labels ∧
        ∀ i (hi : i < vec.length), vec.get ⟨i, hi⟩ = if i ∈ entry then 1 else 0)
      labels (process_labels labels) := by
  have hforall : ∀ e ∈ labels, ∀ j ∈ e, j < n_classes labels := by
    intro e he j hj
    have h1 : j ≤ e.foldr max 0 := le_foldr_max hj
    have h2 : e.foldr max 0 ≤ (labels.map (fun entry => entry.foldr max 0)).foldr max 0 :=
      le_foldr_max (List.mem_map_of_mem _ he)
    unfold n_classes
    omega
  unfold process_labels
  rw [List.forall₂_map_right_iff]
  apply List.forall₂_same.mpr
  intro e he
  have hbound : ∀ j ∈ e, j < (List.replicate (n_classes labels) 0).length := by
    rw [List.length_replicate]
    exact hforall e he
  constructor
  · rw [labelVector, setOnes_length, List.length_replicate, n_classes_eq_globalMax]
    omega
  · intro i hi
    have hlen : (labelVector (n_classes labels) e).length = n_classes labels := by
      rw [labelVector, setOnes_length, List.length_replicate]
    have hi' : i < (List.replicate (n_classes labels) 0).length := by
      rw [List.length_replicate]
      rw [hlen] at hi
      exact hi
    have heq := setOnes_getElem (List.replicate (n_classes labels) 0) e hbound i hi'
    have hrepl : (List.replicate (n_classes labels) 0).get ⟨i, hi'⟩ = 0 := by simp
    rw [hrepl] at heq
    exact heq

/-- Concrete instance of the label-processing theorem for the raw label
lists `[[1], [0, 2]]`. -/
theorem process_labels_spec_witness :
    List.Forall₂
      (fun entry vec =>
        vec.length = 1 + globalMaxLabel [[1], [0, 2]] ∧
        ∀ i (hi : i < vec.length), vec.get ⟨i, hi⟩ = if i ∈ entry then 1 else 0)
      [[1], [0, 2]] (process_labels [[1], [0, 2]]) :=
  process_labels_spec [[1], [0, 2]] (by decide) (by decide)

/-- The three stored split groups ("train", "val", "test"). -/
inductive SplitGroup
  | train
  | val
  | test
deriving DecidableEq

/-- A group argument to `_get_idx` / `_data_generator`: one of the three
stored splits, or the virtual group "all". -/
inductive Group
  | split (g : SplitGroup)
  | all
deriving DecidableEq

def Splits.get (s : Splits) : SplitGroup → List ℕ
  | SplitGroup.train => s.train
  | SplitGroup.val => s.val
  | SplitGroup.test => s.test

def Splits.setG (s : Splits) : SplitGroup → List ℕ → Splits
  | SplitGroup.train, l => { s with train := l }
  | SplitGroup.val, l => { s with val := l }
  | SplitGroup.test, l => { s with test := l }

/-- The mutable state of a `Data` object that `_data_generator` can see:
the record list `self.data` (record tensors abstracted to opaque entries,
since the generator only ever reads them), the processed label vectors
`self.labels`, and the stored split assignment `self.splits`. -/
structure DataState where
  data : List ℕ
  labels : List (List ℕ)
  splits : Splits
deriving DecidableEq

/-- A numpy array value held by the generator's local variable `idx`: it
is either a reference to one of the arrays stored in `self.splits`
(that is what `self.splits[group]` returns — no copy is made), or a
fresh array not aliased to the data object. -/
inductive IdxRef
  | stored (g : SplitGroup)
  | fresh (l : List ℕ)
deriving DecidableEq

/-- `Data._get_idx` (Data.py lines 365-368): for "all" a fresh array
`np.array(list(range(len(self.data))))` is built; for the other groups
the stored array `self.splits[group]` is returned by reference. -/
def get_idx (st : DataState) : Group → IdxRef
  | Group.all => IdxRef.fresh (List.range st.data.length)
  | Group.split g => IdxRef.stored g

/-- The array contents a reference currently denotes. -/
def resolveRef (st : DataState) : IdxRef → List ℕ
  | IdxRef.stored g => st.splits.get g
  | IdxRef.fresh l => l

/-- Writing through a reference, as numpy's in-place
`np.random.shuffle(idx)` does: writing through a stored reference
mutates the array held in `self.splits`; writing through a fresh array
touches only that array. -/
def writeRef (st : DataState) : IdxRef → List ℕ → DataState × IdxRef
  | IdxRef.stored g, l => ({ st with splits := st.splits.setG g l }, IdxRef.stored g)
  | IdxRef.fresh _, l => (st, IdxRef.fresh l)

/-- numpy advanced (integer-array) indexing `idx[select]` (Data.py line
320): a fresh array whose `j`-th entry is `idx[select[j]]`, in the order
the positions appear in `select`.  (numpy raises on an out-of-range
position; the theorems below restrict to in-range positions.) -/
def fancyIndex (idx sel : List ℕ) : List ℕ :=
  sel.map (fun p => idx.getD p 0)

/-- Lines 318-320 of `_data_generator`: `idx = self._get_idx(group)`,
then `if select is not None: idx = idx[select]` (advanced indexing
returns a fresh copy). -/
def data_generator_init (st : DataState) (group : Group) (select : Option (List ℕ)) :
    IdxRef :=
  match select with
  | none => get_idx st group
  | some sel => IdxRef.fresh (fancyIndex (resolveRef st (get_idx st group)) sel)

/-- Fueled worker for `pyRange`; the fuel only bounds the recursion
depth (it starts at `stop - start` and each iteration advances `start`
by `step ≥ 1`), so the result is fuel-independent — see
`pyRangeGo_congr`. -/
def pyRangeGo (step : ℕ) : ℕ → ℕ → ℕ → List ℕ
  | 0, _, _ => []
  | fuel + 1, start, stop =>
    if 0 < step ∧ start < stop then start :: pyRangeGo step fuel (start + step) stop
    else []

/-- Python `range(start, stop, step)` for a positive step (Python raises
on `step = 0`; the batching theorems assume `0 < batch_size`). -/
def pyRange (start stop step : ℕ) : List ℕ :=
  pyRangeGo step (stop - start) start stop

theorem pyRangeGo_congr (step : ℕ) : ∀ f1 f2 start stop : ℕ,
    stop - start ≤ f1 → stop - start ≤ f2 →
    pyRangeGo step f1 start stop = pyRangeGo step f2 start stop := by
  intro f1
  induction f1 with
  | zero =>
    intro f2 start stop h1 h2
    cases f2 with
    | zero => rfl
    | succ m =>
      have : ¬ (0 < step ∧ start < stop) := by omega
      simp [pyRangeGo, this]
  | succ n ih =>
    intro f2 start stop h1 h2
    cases f2 with
    | zero =>
      have : ¬ (0 < step ∧ start < stop) := by omega
      simp [pyRangeGo, this]
    | succ m =>
      simp only [pyRangeGo]
      by_cases hc : 0 < step ∧ start < stop
      · simp only [hc, if_true]
        rw [ih m (start + step) stop (by omega) (by omega)]
      · simp [hc]

theorem pyRange_nil {start stop : ℕ} (step : ℕ) (h : ¬ start < stop) :
    pyRange start stop step = [] := by
  unfold pyRange
  have : stop - start = 0 := by omega
  rw [this]
  rfl

theorem pyRange_cons {start stop step : ℕ} (h1 : 0 < step) (h2 : start < stop) :
    pyRange start stop step = start :: pyRange (start + step) stop step := by
  unfold pyRange
  obtain ⟨n, hn⟩ : ∃ n, stop - start = n + 1 := ⟨stop - start - 1, by omega⟩
  rw [hn]
  simp only [pyRangeGo, h1, h2, and_self, if_true, true_and]
  rw [pyRangeGo_congr step n (stop - (start + step)) (start + step) stop (by omega) (by omega)]

/-- The index windows yielded during one pass of the `while 1` loop
(Data.py lines 327, 339): `for i in range(0, len(idx), batch_size)`
yields the slice `idx[i:(i+batch_size)]`.  Each yielded batch gathers
`self.data[x]` and `self.labels[x]` for the indices `x` in the window;
both are pure reads, so the windows of indices carry all the batching
behaviour. -/
def passBatches (idx : List ℕ) (batch_size : ℕ) : List (List ℕ) :=
  (pyRange 0 idx.length batch_size).map (fun i => (idx.drop i).take batch_size)

/-- The generator's run-time state between two passes of its `while 1`
loop: the owning data object's state, the local variable `idx`, and the
numpy global RNG state. -/
structure GenState (σ : Type) where
  ds : DataState
  ref : IdxRef
  rng : σ
deriving DecidableEq

/-- One pass of the `while 1` loop of `Data._data_generator` (Data.py
lines 321-347): if `shuffle` is set, `np.random.seed(seed)` (also for
`seed = None`, which reseeds from entropy) followed by the in-place
`np.random.shuffle(idx)`; then the batch windows of the current `idx`
are yielded.  Returns the yielded index windows and the state carried
into the next pass. -/
def generatorPass {σ : Type} (R : NpRandom σ) (shuffle : Bool) (seed : Option ℤ)
    (batch_size : ℕ) (g : GenState σ) : List (List ℕ) × GenState σ :=
  let g1 : GenState σ :=
    if shuffle then
      let rng1 : σ := match seed with
        | some s => R.seedFn s
        | none => R.entropyFn g.rng
      let idx := resolveRef g.ds g.ref
      let idx' := applyPositional (R.shufflePerm rng1 idx.length) idx
      let wr := writeRef g.ds g.ref idx'
      { ds := wr.1, ref := wr.2, rng := R.shuffleNext rng1 idx.length }
    else g
  (passBatches (resolveRef g1.ds g1.ref) batch_size, g1)

/-- `k` consecutive passes of the generator loop. -/
def generatorRun {σ : Type} (R : NpRandom σ) (shuffle : Bool) (seed : Option ℤ)
    (batch_size : ℕ) : ℕ → GenState σ → GenState σ
  | 0, g => g
  | k + 1, g => generatorRun R shuffle seed batch_size k (generatorPass R shuffle seed batch_size g).2

theorem pyRange_shift (step : ℕ) (hs : 0 < step) :
    ∀ (n stop start : ℕ), stop - start ≤ n →
      pyRange (start + step) stop step = (pyRange start (stop - step) step).map (· + step) := by
  intro n
  induction n with
  | zero =>
    intro stop start h
    rw [pyRange_nil step (by omega), pyRange_nil step (by omega)]
    rfl
  | succ n ih =>
    intro stop start h
    by_cases hlt : start + step < stop
    · rw [pyRange_cons hs hlt, pyRange_cons hs (by omega : start < stop - step)]
      rw [List.map_cons]
      rw [ih stop (start + step) (by omega)]
    · rw [pyRange_nil step hlt, pyRange_nil step (by omega)]
      rfl

theorem passBatches_nil (b : ℕ) : passBatches [] b = [] := by
  unfold passBatches
  rw [pyRange_nil b (by simp)]
  rfl

theorem passBatches_cons (idx : List ℕ) (b : ℕ) (hb : 0 < b) (hne : idx ≠ []) :
    passBatches idx b = idx.take b :: passBatches (idx.drop b) b := by
  have hlen : 0 < idx.length := List.length_pos.mpr hne
  unfold passBatches
  rw [pyRange_cons hb hlen]
  simp only [List.map_cons, List.drop_zero, Nat.zero_add, List.length_drop]
  have hshift := pyRange_shift b hb idx.length idx.length 0 (by omega)
  rw [Nat.zero_add] at hshift
  rw [hshift, List.map_map]
  congr 1
  apply List.map_congr_left
  intro i _
  simp only [Function.comp_apply]
  rw [List.drop_drop, Nat.add_comm b i]

theorem passBatches_ne_nil (idx : List ℕ) (b : ℕ) (hb : 0 < b) (hne : idx ≠ []) :
    passBatches idx b ≠ [] := by
  rw [passBatches_cons idx b hb hne]
  simp

theorem passBatches_flatten (b : ℕ) (hb : 0 < b) (idx : List ℕ) :
    (passBatches idx b).flatten = idx := by
  have key : ∀ (n : ℕ) (l : List ℕ), l.length ≤ n → (passBatches l b).flatten = l := by
    intro n
    induction n with
    | zero =>
      intro l h
      have : l = [] := List.eq_nil_of_length_eq_zero (by omega)
      subst this
      rw [passBatches_nil]
      rfl
    | succ n ih =>
      intro l h
      by_cases hne : l = []
      · subst hne
        rw [passBatches_nil]
        rfl
      · rw [passBatches_cons l b hb hne, List.flatten_cons]
        rw [ih (l.drop b) (by rw [List.length_drop]; omega)]
        exact List.take_append_drop b l
  exact key idx.length idx le_rfl

theorem passBatches_length (b : ℕ) (hb : 0 < b) (idx : List ℕ) :
    (passBatches idx b).length = (idx.length + b - 1) / b := by
  have key : ∀ (n : ℕ) (l : List ℕ), l.length ≤ n →
      (passBatches l b).length = (l.length + b - 1) / b := by
    intro n
    induction n with
    | zero =>
      intro l h
      have : l = [] := List.eq_nil_of_length_eq_zero (by omega)
      subst this
      rw [passBatches_nil]
      simp [Nat.div_eq_of_lt (by omega : b - 1 < b)]
    | succ n ih =>
      intro l h
      by_cases hne : l = []
      · subst hne
        rw [passBatches_nil]
        simp [Nat.div_eq_of_lt (by omega : b - 1 < b)]
      · have hpos : 0 < l.length := List.length_pos.mpr hne
        rw [passBatches_cons l b hb hne, List.length_cons]
        rw [ih (l.drop b) (by rw [List.length_drop]; omega)]
        rw [List.length_drop]
        rcases le_or_lt b l.length with hbl | hbl
        · have h1 : l.length - b + b - 1 = l.length - 1 := by omega
          have h2 : l.length + b - 1 = (l.length - 1) + b := by omega
          rw [h1, h2, Nat.add_div_right _ hb]
        · have h1 : l.length - b + b - 1 = b - 1 := by omega
          rw [h1, Nat.div_eq_of_lt (by omega : b - 1 < b)]
          have h2 : (l.length + b - 1) / b = 1 := by
            apply Nat.div_eq_of_lt_le
            · omega
            · omega
          rw [h2]
  exact key idx.length idx le_rfl

theorem passBatches_dropLast (b : ℕ) (hb : 0 < b) (idx : List ℕ) :
    ∀ w ∈ (passBatches idx b).dropLast, w.length = b := by
  have key : ∀ (n : ℕ) (l : List ℕ), l.length ≤ n →
      ∀ w ∈ (passBatches l b).dropLast, w.length = b := by
    intro n
    induction n with
    | zero =>
      intro l h w hw
      have : l = [] := List.eq_nil_of_length_eq_zero (by omega)
      subst this
      rw [passBatches_nil] at hw
      cases hw
    | succ n ih =>
      intro l h w hw
      by_cases hne : l = []
      · subst hne
        rw [passBatches_nil] at hw
        cases hw
      · rw [passBatches_cons l b hb hne] at hw
        by_cases hne2 : l.drop b = []
        · rw [hne2, passBatches_nil] at hw
          simp at hw
        · have hrest : passBatches (l.drop b) b ≠ [] := passBatches_ne_nil _ b hb hne2
          rw [List.dropLast_cons_of_ne_nil hrest] at hw
          rcases List.mem_cons.mp hw with rfl | hw'
          · have hbl : b ≤ l.length := by
              by_contra hc
              have : l.drop b = [] := List.drop_eq_nil_of_le (by omega)
              exact hne2 this
            rw [List.length_take]
            omega
          · exact ih (l.drop b) (by rw [List.length_drop]; omega) w hw'
  exact key idx.length idx le_rfl

theorem getLastD_cons_of_ne_nil {α : Type} {l : List α} (a d : α) (h : l ≠ []) :
    (a :: l).getLastD d = l.getLastD d := by
  cases l with
  | nil => exact absurd rfl h
  | cons x xs => simp [List.getLastD_cons]

theorem passBatches_getLastD (b : ℕ) (hb : 0 < b) (idx : List ℕ) (hne : idx ≠ [])
    (hnd : ¬ b ∣ idx.length) :
    ((passBatches idx b).getLastD []).length = idx.length % b := by
  have key : ∀ (n : ℕ) (l : List ℕ), l.length ≤ n → l ≠ [] → ¬ b ∣ l.length →
      ((passBatches l b).getLastD []).length = l.length % b := by
    intro n
    induction n with
    | zero =>
      intro l h hl _
      exact absurd (List.eq_nil_of_length_eq_zero (by omega)) hl
    | succ n ih =>
      intro l h hl hd
      rw [passBatches_cons l b hb hl]
      by_cases hne2 : l.drop b = []
      · have hlb : l.length ≤ b := by
          have := List.drop_eq_nil_iff_le.mp hne2
          omega
        have hlt : l.length < b := by
          rcases Nat.lt_or_ge l.length b with h' | h'
          · exact h'
          · have : l.length = b := by omega
            rw [this] at hd
            exact absurd (dvd_refl b) hd
        rw [hne2, passBatches_nil]
        rw [show ([l.take b] : List (List ℕ)).getLastD [] = l.take b by
          simp [List.getLastD_cons]]
        rw [List.length_take, Nat.mod_eq_of_lt hlt]
        omega
      · have hrest : passBatches (l.drop b) b ≠ [] := passBatches_ne_nil _ b hb hne2
        rw [getLastD_cons_of_ne_nil _ _ hrest]
        have hbl : b ≤ l.length := by
          by_contra hc
          exact hne2 (List.drop_eq_nil_of_le (by omega))
        have hd' : ¬ b ∣ (l.drop b).length := by
          rw [List.length_drop]
          intro hdvd
          apply hd
          have := Nat.dvd_add hdvd (dvd_refl b)
          rwa [Nat.sub_add_cancel hbl] at this
        rw [ih (l.drop b) (by rw [List.length_drop]; omega) hne2 hd']
        rw [List.length_drop]
        exact (Nat.mod_eq_sub_mod hbl).symm
  exact key idx.length idx le_rfl hne hnd

theorem Splits.get_setG (s : Splits) (g g' : SplitGroup) (l : List ℕ) :
    (s.setG g l).get g' = if g' = g then l else s.get g' := by
  cases g <;> cases g' <;> simp [Splits.setG, Splits.get]

theorem resolveRef_writeRef (st : DataState) (r : IdxRef) (l : List ℕ) :
    resolveRef (writeRef st r l).1 (writeRef st r l).2 = l := by
  cases r with
  | stored g => simp [writeRef, resolveRef, Splits.get_setG]
  | fresh _ => rfl

theorem writeRef_data (st : DataState) (r : IdxRef) (l : List ℕ) :
    (writeRef st r l).1.data = st.data := by
  cases r <;> rfl

theorem writeRef_labels (st : DataState) (r : IdxRef) (l : List ℕ) :
    (writeRef st r l).1.labels = st.labels := by
  cases r <;> rfl

theorem range_map_getD (l : List ℕ) :
    (List.range l.length).map (fun i => l.getD i 0) = l := by
  apply List.ext_getElem
  · simp
  · intro i h1 h2
    simp only [List.getElem_map, List.getElem_range]
    exact List.getD_eq_getElem l 0 h2

theorem applyPositional_perm {p l : List ℕ} (hp : p.Perm (List.range l.length)) :
    (applyPositional p l).Perm l := by
  have h2 := hp.map (fun i => l.getD i 0)
  rwa [range_map_getD] at h2

theorem generatorPass_data {σ : Type} (R : NpRandom σ) (shuffle : Bool) (seed : Option ℤ)
    (b : ℕ) (g : GenState σ) :
    (generatorPass R shuffle seed b g).2.ds.data = g.ds.data := by
  cases shuffle <;> simp [generatorPass, writeRef_data]

theorem generatorPass_labels {σ : Type} (R : NpRandom σ) (shuffle : Bool) (seed : Option ℤ)
    (b : ℕ) (g : GenState σ) :
    (generatorPass R shuffle seed b g).2.ds.labels = g.ds.labels := by
  cases shuffle <;> simp [generatorPass, writeRef_labels]

theorem generatorPass_splits_perm {σ : Type} (R : NpRandom σ) (shuffle : Bool)
    (seed : Option ℤ) (b : ℕ) (g : GenState σ) (key : SplitGroup) :
    ((generatorPass R shuffle seed b g).2.ds.splits.get key).Perm (g.ds.splits.get key) := by
  obtain ⟨ds, ref, rng⟩ := g
  cases shuffle
  · exact List.Perm.refl _
  · cases ref with
    | fresh l => exact List.Perm.refl _
    | stored gk =>
      simp only [generatorPass, writeRef, resolveRef, if_true]
      rw [Splits.get_setG]
      by_cases hk : key = gk
      · subst hk
        simp only [if_pos rfl]
        exact applyPositional_perm (R.shufflePerm_perm _ _)
      · simp only [if_neg hk]
        exact List.Perm.refl _

theorem generatorPass_fresh {σ : Type} (R : NpRandom σ) (shuffle : Bool) (seed : Option ℤ)
    (b : ℕ) (g : GenState σ) (l : List ℕ) (h : g.ref = IdxRef.fresh l) :
    (generatorPass R shuffle seed b g).2.ds = g.ds ∧
    ∃ l', (generatorPass R shuffle seed b g).2.ref = IdxRef.fresh l' := by
  obtain ⟨ds, ref, rng⟩ := g
  cases ref with
  | stored gk => cases h
  | fresh l0 =>
    cases shuffle
    · exact ⟨rfl, l0, rfl⟩
    · exact ⟨rfl, _, rfl⟩

theorem generatorRun_data {σ : Type} (R : NpRandom σ) (shuffle : Bool) (seed : Option ℤ)
    (b : ℕ) : ∀ (k : ℕ) (g : GenState σ),
    (generatorRun R shuffle seed b k g).ds.data = g.ds.data := by
  intro k
  induction k with
  | zero => intro g; rfl
  | succ n ih =>
    intro g
    rw [generatorRun, ih, generatorPass_data]

theorem generatorRun_labels {σ : Type} (R : NpRandom σ) (shuffle : Bool) (seed : Option ℤ)
    (b : ℕ) : ∀ (k : ℕ) (g : GenState σ),
    (generatorRun R shuffle seed b k g).ds.labels = g.ds.labels := by
  intro k
  induction k with
  | zero => intro g; rfl
  | succ n ih =>
    intro g
    rw [generatorRun, ih, generatorPass_labels]

theorem generatorRun_splits_perm {σ : Type} (R : NpRandom σ) (shuffle : Bool)
    (seed : Option ℤ) (b : ℕ) : ∀ (k : ℕ) (g : GenState σ) (key : SplitGroup),
    ((generatorRun R shuffle seed b k g).ds.splits.get key).Perm (g.ds.splits.get key) := by
  intro k
  induction k with
  | zero => intro g key; exact List.Perm.refl _
  | succ n ih =>
    intro g key
    rw [generatorRun]
    exact (ih _ key).trans (generatorPass_splits_perm R shuffle seed b g key)

theorem generatorRun_fresh {σ : Type} (R : NpRandom σ) (shuffle : Bool) (seed : Option ℤ)
    (b : ℕ) : ∀ (k : ℕ) (g : GenState σ) (l : List ℕ), g.ref = IdxRef.fresh l →
    (generatorRun R shuffle seed b k g).ds = g.ds := by
  intro k
  induction k with
  | zero => intro g l _; rfl
  | succ n ih =>
    intro g l h
    rw [generatorRun]
    obtain ⟨hds, l', hl'⟩ := generatorPass_fresh R shuffle seed b g l h
    rw [ih _ l' hl', hds]

theorem generatorPass_resolved_perm {σ : Type} (R : NpRandom σ) (shuffle : Bool)
    (seed : Option ℤ) (b : ℕ) (g : GenState σ) :
    (resolveRef (generatorPass R shuffle seed b g).2.ds
      (generatorPass R shuffle seed b g).2.ref).Perm (resolveRef g.ds g.ref) := by
  obtain ⟨ds, ref, rng⟩ := g
  cases shuffle
  · exact List.Perm.refl _
  · simp only [generatorPass, if_true]
    rw [resolveRef_writeRef]
    exact applyPositional_perm (R.shufflePerm_perm _ _)

theorem generatorRun_resolved_perm {σ : Type} (R : NpRandom σ) (shuffle : Bool)
    (seed : Option ℤ) (b : ℕ) : ∀ (k : ℕ) (g : GenState σ),
    (resolveRef (generatorRun R shuffle seed b k g).ds
      (generatorRun R shuffle seed b k g).ref).Perm (resolveRef g.ds g.ref) := by
  intro k
  induction k with
  | zero => intro g; exact List.Perm.refl _
  | succ n ih =>
    intro g
    rw [generatorRun]
    exact (ih _).trans (generatorPass_resolved_perm R shuffle seed b g)

theorem generatorRun_succ' {σ : Type} (R : NpRandom σ) (shuffle : Bool) (seed : Option ℤ)
    (b : ℕ) : ∀ (k : ℕ) (g : GenState σ),
    generatorRun R shuffle seed b (k + 1) g =
      (generatorPass R shuffle seed b (generatorRun R shuffle seed b k g)).2 := by
  intro k
  induction k with
  | zero => intro g; rfl
  | succ n ih =>
    intro g
    rw [generatorRun, ih, ← generatorRun]

theorem generatorPass_resolved_shuffle {σ : Type} (R : NpRandom σ) (s : ℤ) (b : ℕ)
    (g : GenState σ) :
    resolveRef (generatorPass R true (some s) b g).2.ds
        (generatorPass R true (some s) b g).2.ref =
      applyPositional (R.shufflePerm (R.seedFn s) (resolveRef g.ds g.ref).length)
        (resolveRef g.ds g.ref) := by
  obtain ⟨ds, ref, rng⟩ := g
  simp only [generatorPass, if_true]
  exact resolveRef_writeRef _ _ _

/-- C3 counterexample: on a 3-record dataset with stored training split
`[0, 1, 2]`, one shuffled pass of the batch generator for the "train"
group (no `select`) leaves the stored training index array changed —
`self._get_idx` returned the stored numpy array by reference, and the
in-place `np.random.shuffle(idx)` permuted it.  So the stored split
assignment is not unchanged after batches are consumed. -/
theorem data_generator_mutates_stored_split :
    (generatorPass demoRng true (some 1) 2
        ⟨{ data := [10, 20, 30], labels := [[1], [0], [1]],
           splits := { train := [0, 1, 2], val := [], test := [] } },
          data_generator_init
            { data := [10, 20, 30], labels := [[1], [0], [1]],
              splits := { train := [0, 1, 2], val := [], test := [] } }
            (Group.split SplitGroup.train) none, 0⟩).2.ds.splits.train ≠ [0, 1, 2] := by
  decide

/-- C3 amended: after any number of generator passes, the record list
and the label vectors are unchanged, and each stored split index array
still holds the same index set (it is a permutation of its previous
contents); moreover, whenever `select` is given or the group is "all"
the shuffled array is a fresh copy, so the stored split assignment is
completely unchanged.  What fails in the original claim is only the
order of the stored arrays in the remaining case (`select = None` and a
stored group), where shuffling acts in place through the reference. -/
theorem data_generator_frame {σ : Type} (R : NpRandom σ) (st : DataState) (group : Group)
    (select : Option (List ℕ)) (shuffle : Bool) (seed : Option ℤ) (b k : ℕ) (rng : σ) :
    let gk := generatorRun R shuffle seed b k ⟨st, data_generator_init st group select, rng⟩
    gk.ds.data = st.data ∧ gk.ds.labels = st.labels ∧
    (∀ key : SplitGroup, (gk.ds.splits.get key).Perm (st.splits.get key)) ∧
    ((select ≠ none ∨ group = Group.all) → gk.ds.splits = st.splits) := by
  intro gk
  refine ⟨generatorRun_data R shuffle seed b k _, generatorRun_labels R shuffle seed b k _,
    fun key => generatorRun_splits_perm R shuffle seed b k _ key, ?_⟩
  intro hcase
  have hfresh : ∃ l, data_generator_init st group select = IdxRef.fresh l := by
    rcases hcase with h | h
    · cases select with
      | none => exact absurd rfl h
      | some sel => exact ⟨_, rfl⟩
    · subst h
      cases select with
      | none => exact ⟨_, rfl⟩
      | some sel => exact ⟨_, rfl⟩
  obtain ⟨l, hl⟩ := hfresh
  have hds := generatorRun_fresh R shuffle seed b k
    ⟨st, data_generator_init st group select, rng⟩ l hl
  exact congrArg DataState.splits hds

/-- Concrete instance of the generator frame theorem: two shuffled
passes over the "train" group with a `select` argument. -/
theorem data_generator_frame_witness :
    let gk := generatorRun demoRng true (some 2) 2 2
      ⟨{ data := [10, 20, 30], labels := [[1], [0], [1]],
         splits := { train := [0, 1, 2], val := [], test := [] } },
        data_generator_init
          { data := [10, 20, 30], labels := [[1], [0], [1]],
            splits := { train := [0, 1, 2], val := [], test := [] } }
          (Group.split SplitGroup.train) (some [2, 0]), 0⟩
    gk.ds.data = [10, 20, 30] ∧ gk.ds.labels = [[1], [0], [1]] ∧
    (∀ key : SplitGroup,
      (gk.ds.splits.get key).Perm
        (Splits.get { train := [0, 1, 2], val := [], test := [] } key)) ∧
    ((some [2, 0] ≠ (none : Option (List ℕ)) ∨ Group.split SplitGroup.train = Group.all) →
      gk.ds.splits = { train := [0, 1, 2], val := [], test := [] }) :=
  data_generator_frame demoRng
    { data := [10, 20, 30], labels := [[1], [0], [1]],
      splits := { train := [0, 1, 2], val := [], test := [] } }
    (Group.split SplitGroup.train) (some [2, 0]) true (some 2) 2 2 0

/-- C10 counterexample: with shuffle enabled and the fixed seed 5, the
batches yielded in the first pass differ from the batches yielded in the
second pass.  The generator does reseed with the same seed at the start
of every pass, so the same positional rearrangement is applied each
time — but it is applied *in place* to the already-shuffled working
array, so epoch `k` sees the rearrangement applied `k` times, not once. -/
theorem generator_epochs_not_identical :
    (generatorPass demoRng true (some 5) 2
        ⟨{ data := [10, 20, 30], labels := [[1], [0], [1]],
           splits := { train := [0, 1, 2], val := [], test := [] } },
          data_generator_init
            { data := [10, 20, 30], labels := [[1], [0], [1]],
              splits := { train := [0, 1, 2], val := [], test := [] } }
            (Group.split SplitGroup.train) none, 0⟩).1 ≠
      (generatorPass demoRng true (some 5) 2
        (generatorPass demoRng true (some 5) 2
          ⟨{ data := [10, 20, 30], labels := [[1], [0], [1]],
             splits := { train := [0, 1, 2], val := [], test := [] } },
            data_generator_init
              { data := [10, 20, 30], labels := [[1], [0], [1]],
                splits := { train := [0, 1, 2], val := [], test := [] } }
              (Group.split SplitGroup.train) none, 0⟩).2).1 := by
  decide

/-- C10 amended: with shuffle enabled and a non-`None` seed `s`, the
generator reseeds with `s` at the start of every pass, so every pass
applies the *same* positional rearrangement
`R.shufflePerm (R.seedFn s) n` to the working index array; because the
shuffle is in place, the order seen by pass `k+1` is that fixed
rearrangement applied to the order seen by pass `k` (not a fixed order
repeated every epoch). -/
theorem generator_reseed_same_permutation {σ : Type} (R : NpRandom σ) (st : DataState)
    (group : Group) (select : Option (List ℕ)) (b : ℕ) (s : ℤ) (rng : σ) (k : ℕ) :
    let ord : ℕ → List ℕ := fun j =>
      resolveRef
        (generatorRun R true (some s) b j ⟨st, data_generator_init st group select, rng⟩).ds
        (generatorRun R true (some s) b j ⟨st, data_generator_init st group select, rng⟩).ref
    ord (k + 1) = applyPositional (R.shufflePerm (R.seedFn s) (ord k).length) (ord k) := by
  intro ord
  show resolveRef (generatorRun R true (some s) b (k + 1) _).ds
      (generatorRun R true (some s) b (k + 1) _).ref = _
  rw [generatorRun_succ' R true (some s) b k]
  exact generatorPass_resolved_shuffle R s b _

/-- C6: for a resolved index sequence `idx` and positive batch size
`b`, one full pass of the generator yields `⌈|idx| / b⌉` contiguous
windows whose concatenation is exactly `idx`; every window except
possibly the last has exactly `b` elements and the last has
`|idx| mod b` elements when `b` does not divide `|idx|`; and the
generator never terminates — for every pass number `k`, the batches of
pass `k+1` together still cover exactly the resolved index set (as a
permutation of it). -/
theorem data_generator_batches (idx : List ℕ) (b : ℕ) (hb : 0 < b) :
    ((passBatches idx b).length = (idx.length + b - 1) / b) ∧
    ((passBatches idx b).flatten = idx) ∧
    (∀ w ∈ (passBatches idx b).dropLast, w.length = b) ∧
    (idx ≠ [] → ¬ b ∣ idx.length →
      ((passBatches idx b).getLastD []).length = idx.length % b) ∧
    (∀ (σ : Type) (R : NpRandom σ) (st : DataState) (group : Group)
        (select : Option (List ℕ)) (shuffle : Bool) (seed : Option ℤ) (rng : σ) (k : ℕ),
      ((generatorPass R shuffle seed b
          (generatorRun R shuffle seed b k
            ⟨st, data_generator_init st group select, rng⟩)).1.flatten).Perm
        (resolveRef st (data_generator_init st group select))) := by
  refine ⟨passBatches_length b hb idx, passBatches_flatten b hb idx,
    passBatches_dropLast b hb idx,
    fun h1 h2 => passBatches_getLastD b hb idx h1 h2, ?_⟩
  intro σ R st group select shuffle seed rng k
  have h1 : (generatorPass R shuffle seed b
      (generatorRun R shuffle seed b k ⟨st, data_generator_init st group select, rng⟩)).1.flatten =
      resolveRef
        (generatorPass R shuffle seed b
          (generatorRun R shuffle seed b k ⟨st, data_generator_init st group select, rng⟩)).2.ds
        (generatorPass R shuffle seed b
          (generatorRun R shuffle seed b k ⟨st, data_generator_init st group select, rng⟩)).2.ref := by
    exact passBatches_flatten b hb _
  rw [h1]
  exact (generatorPass_resolved_perm R shuffle seed b _).trans
    (generatorRun_resolved_perm R shuffle seed b k _)

/-- Concrete instance of the batching theorem at `idx = [4, 5, 6]`,
`batch_size = 2`. -/
theorem data_generator_batches_witness :
    ((passBatches [4, 5, 6] 2).length = (([4, 5, 6] : List ℕ).length + 2 - 1) / 2) ∧
    ((passBatches [4, 5, 6] 2).flatten = [4, 5, 6]) ∧
    (∀ w ∈ (passBatches [4, 5, 6] 2).dropLast, w.length = 2) ∧
    (([4, 5, 6] : List ℕ) ≠ [] → ¬ 2 ∣ ([4, 5, 6] : List ℕ).length →
      ((passBatches [4, 5, 6] 2).getLastD []).length = ([4, 5, 6] : List ℕ).length % 2) ∧
    (∀ (σ : Type) (R : NpRandom σ) (st : DataState) (group : Group)
        (select : Option (List ℕ)) (shuffle : Bool) (seed : Option ℤ) (rng : σ) (k : ℕ),
      ((generatorPass R shuffle seed 2
          (generatorRun R shuffle seed 2 k
            ⟨st, data_generator_init st group select, rng⟩)).1.flatten).Perm
        (resolveRef st (data_generator_init st group select))) :=
  data_generator_batches [4, 5, 6] 2 (by decide)

/-- C7 counterexample: with stored training split `[0, 1, 2]` and
`select = [2, 0]`, the generator iterates `[2, 0]` — the order in which
the positions appear in `select` — and not `[0, 2]`, the order those
records have in the parent index array.  numpy advanced indexing
`idx[select]` honours the order of `select`. -/
theorem data_generator_select_order :
    resolveRef
        { data := [10, 20, 30], labels := [[1], [0], [1]],
          splits := { train := [0, 1, 2], val := [], test := [] } }
        (data_generator_init
          { data := [10, 20, 30], labels := [[1], [0], [1]],
            splits := { train := [0, 1, 2], val := [], test := [] } }
          (Group.split SplitGroup.train) (some [2, 0])) = [2, 0] ∧
      ([2, 0] : List ℕ) ≠ [0, 2] := by
  decide

/-- C7 amended: with `select` given, the generator iterates exactly the
records at the selected positions of the group's index array, but in
the order (and multiplicity) in which the positions appear in `select`
— the parent array's relative order is preserved only when `select` is
itself increasing. -/
theorem data_generator_select (st : DataState) (group : Group) (sel : List ℕ)
    (hb : ∀ p ∈ sel, p < (resolveRef st (get_idx st group)).length) :
    let parent := resolveRef st (get_idx st group)
    let r := resolveRef st (data_generator_init st group (some sel))
    r.length = sel.length ∧
    (∀ j, j < sel.length → r.getD j 0 = parent.getD (sel.getD j 0) 0) ∧
    (∀ x ∈ r, ∃ p, ∃ hp : p < parent.length, p ∈ sel ∧ x = parent.get ⟨p, hp⟩) := by
  intro parent r
  have hr : r = fancyIndex parent sel := rfl
  refine ⟨?_, ?_, ?_⟩
  · rw [hr]
    simp [fancyIndex]
  · intro j hj
    have hj' : j < (fancyIndex parent sel).length := by simpa [fancyIndex] using hj
    rw [hr, List.getD_eq_getElem _ _ hj', List.getD_eq_getElem _ _ hj]
    simp [fancyIndex]
  · intro x hx
    rw [hr] at hx
    obtain ⟨p, hp, rfl⟩ := List.mem_map.mp hx
    refine ⟨p, hb p hp, hp, ?_⟩
    rw [List.get_eq_getElem]
    exact List.getD_eq_getElem parent 0 (hb p hp)

/-- Concrete instance of the select theorem: training split `[0, 1, 2]`
with `select = [2, 0]`. -/
theorem data_generator_select_witness :
    let parent := resolveRef
      { data := [10, 20, 30], labels := [[1], [0], [1]],
        splits := { train := [0, 1, 2], val := [], test := [] } }
      (get_idx
        { data := [10, 20, 30], labels := [[1], [0], [1]],
          splits := { train := [0, 1, 2], val := [], test := [] } }
        (Group.split SplitGroup.train))
    let r := resolveRef
      { data := [10, 20, 30], labels := [[1], [0], [1]],
        splits := { train := [0, 1, 2], val := [], test := [] } }
      (data_generator_init
        { data := [10, 20, 30], labels := [[1], [0], [1]],
          splits := { train := [0, 1, 2], val := [], test := [] } }
        (Group.split SplitGroup.train) (some [2, 0]))
    r.length = ([2, 0] : List ℕ).length ∧
    (∀ j, j < ([2, 0] : List ℕ).length →
      r.getD j 0 = parent.getD (([2, 0] : List ℕ).getD j 0) 0) ∧
    (∀ x ∈ r, ∃ p, ∃ hp : p < parent.length, p ∈ ([2, 0] : List ℕ) ∧ x = parent.get ⟨p, hp⟩) :=
  data_generator_select
    { data := [10, 20, 30], labels := [[1], [0], [1]],
      splits := { train := [0, 1, 2], val := [], test := [] } }
    (Group.split SplitGroup.train) [2, 0] (by decide)

/-- `Data.load_additional_data` (Data.py lines 179-194), restricted to
the part that decides the consistency check: the loop appends every
line of every provided file into the single flat list
`self.meta[idx]['data']`, and the only validation raises
`RuntimeError("Number of additional data ... doesn't match number of
main data ...")` when `len(self.labels) != len(self.meta[idx]['data'])`
— a comparison of the grand totals.  (The subsequent categorical
one-hot encoding and z-scoring happen after this check and do not
affect it.) -/
def load_additional_data (fileLines : List (List String)) (numRecords : ℕ) :
    Except String (List String) :=
  let data := fileLines.flatten
  if numRecords ≠ data.length then
    Except.error "Number of additional data does not match number of main data."
  else Except.ok data

/-- C8 counterexample: two classes of 2 records each (4 records total)
and two auxiliary files of 3 lines and 1 line.  The first file's line
count (3) differs from its class's record count (2), yet the totals
agree (4 = 4), and the call raises no error: the code only ever
compares the grand totals. -/
theorem load_additional_data_total_only :
    ((["a", "b", "c"] : List String).length ≠ 2 ∧
      (["a", "b", "c"] : List String).length + (["d"] : List String).length = 2 + 2) ∧
    isExceptError (load_additional_data [["a", "b", "c"], ["d"]] (2 + 2)) = false := by
  decide

/-- C8 amended: `load_additional_data` raises its consistency error
exactly when the total line count across all provided files differs
from the total record count of the dataset; per-file mismatches whose
totals agree pass silently. -/
theorem load_additional_data_check (fileLines : List (List String)) (numRecords : ℕ) :
    isExceptError (load_additional_data fileLines numRecords) = true ↔
      numRecords ≠ (fileLines.map List.length).sum := by
  have hlen : fileLines.flatten.length = (fileLines.map List.length).sum := by simp
  simp only [load_additional_data, hlen]
  by_cases h : numRecords = (fileLines.map List.length).sum
  · simp [h, isExceptError]
  · simp [h, isExceptError]

/-- Python `str.find`: the index of the first occurrence of the
character, or `-1` when it does not occur (Data.py line 304 uses it on
`self.alpha_coder.alph0`). -/
def strFind (alpha : List Char) (c : Char) : ℤ :=
  if c ∈ alpha then (alpha.indexOf c : ℤ) else -1

/-- The numpy slice assignment `row[pos:(pos+len(vals))] = vals` on a
one-dimensional row (Data.py line 305); faithful when
`pos + len(vals) ≤ len(row)` (numpy raises otherwise, which the
theorems below rule out). -/
def sliceAssign (row vals : List ℚ) (pos : ℕ) : List ℚ :=
  row.take pos ++ (vals ++ row.drop (pos + vals.length))

/-- Modelled from the spec: `Alphabet_Encoder` (file
`pysster/Alphabet_Encoder.py`, which is not under src/) combines the
two alphabets into a joint alphabet by the fixed pairing rule
`index = primary_index × |secondary| + secondary_index`, so the joint
alphabet used for the encoded width (`len(self.alpha_coder.alphabet)`)
has size `|primary| × |secondary|`. -/
def jointAlphabetSize (alph0 alph1 : List Char) : ℕ :=
  alph0.length * alph1.length

/-- `Data._join_seq_pwm` (Data.py lines 301-306): a zero matrix of
shape `(len(sequence), |joint alphabet|)` in which, for each position
`i`, the slice of width `|alph1|` starting at
`alph0.find(sequence[i]) * |alph1|` is overwritten with the PWM row
`pwm[i,:]`. -/
def join_seq_pwm (alph0 alph1 : List Char) (sequence : List Char)
    (pwm : List (List ℚ)) : List (List ℚ) :=
  (List.range sequence.length).map (fun i =>
    sliceAssign (List.replicate (jointAlphabetSize alph0 alph1) 0)
      (pwm.getD i [])
      ((strFind alph0 (sequence.getD i ' ') * (alph1.length : ℤ)).toNat))

theorem sliceAssign_length (row vals : List ℚ) (pos : ℕ)
    (h : pos + vals.length ≤ row.length) :
    (sliceAssign row vals pos).length = row.length := by
  simp only [sliceAssign, List.length_append, List.length_take, List.length_drop]
  omega

theorem sliceAssign_drop_take (row vals : List ℚ) (pos : ℕ)
    (h : pos + vals.length ≤ row.length) :
    ((sliceAssign row vals pos).drop pos).take vals.length = vals := by
  unfold sliceAssign
  have h1 : (row.take pos).length = pos := by
    rw [List.length_take]
    omega
  rw [List.drop_left' h1, List.take_left]

theorem sliceAssign_getD_outside (row vals : List ℚ) (pos j : ℕ)
    (h : pos + vals.length ≤ row.length) (hj : j < row.length)
    (hout : j < pos ∨ pos + vals.length ≤ j) :
    (sliceAssign row vals pos).getD j 0 = row.getD j 0 := by
  have h1 : (row.take pos).length = pos := by
    rw [List.length_take]
    omega
  rcases hout with hlt | hge
  · unfold sliceAssign
    rw [List.getD_append _ _ _ _ (by omega)]
    rw [List.getD_eq_getElem _ _ (by omega), List.getD_eq_getElem _ _ hj]
    exact List.getElem_take _
  · unfold sliceAssign
    rw [List.getD_append_right _ _ _ _ (by omega), h1]
    rw [List.getD_append_right _ _ _ _ (by omega)]
    rw [List.getD_eq_getElem _ _ (by rw [List.length_drop]; omega),
      List.getD_eq_getElem _ _ hj]
    rw [List.getElem_drop]
    congr 1
    omega

/-- C9: for a sequence over the primary alphabet and a PWM with one row
of width `|alph1|` per position, `_join_seq_pwm` produces a
`len(sequence) × (|alph0|·|alph1|)` matrix in which row `i` carries the
PWM row for position `i` in the slice of width `|alph1|` starting at
column `index_of(sequence[i]) · |alph1|`, and `0` everywhere outside
that slice. -/
theorem join_seq_pwm_spec (alph0 alph1 : List Char) (sequence : List Char)
    (pwm : List (List ℚ))
    (hmem : ∀ c ∈ sequence, c ∈ alph0)
    (hpwm : pwm.length = sequence.length)
    (hrow : ∀ row ∈ pwm, row.length = alph1.length) :
    (join_seq_pwm alph0 alph1 sequence pwm).length = sequence.length ∧
    ∀ i, i < sequence.length →
      (((join_seq_pwm alph0 alph1 sequence pwm).getD i []).length =
          jointAlphabetSize alph0 alph1 ∧
        (((join_seq_pwm alph0 alph1 sequence pwm).getD i []).drop
            (alph0.indexOf (sequence.getD i ' ') * alph1.length)).take alph1.length =
          pwm.getD i [] ∧
        ∀ j, j < jointAlphabetSize alph0 alph1 →
          (j < alph0.indexOf (sequence.getD i ' ') * alph1.length ∨
            alph0.indexOf (sequence.getD i ' ') * alph1.length + alph1.length ≤ j) →
          ((join_seq_pwm alph0 alph1 sequence pwm).getD i []).getD j 0 = 0) := by
  constructor
  · simp [join_seq_pwm]
  · intro i hi
    have hc : sequence.getD i ' ' ∈ alph0 := by
      rw [List.getD_eq_getElem _ _ hi]
      exact hmem _ (List.getElem_mem _)
    have hplt : alph0.indexOf (sequence.getD i ' ') < alph0.length :=
      List.indexOf_lt_length.mpr hc
    have hfind : strFind alph0 (sequence.getD i ' ') =
        (alph0.indexOf (sequence.getD i ' ') : ℤ) := by
      rw [strFind, if_pos hc]
    have hpos : ((strFind alph0 (sequence.getD i ' ') * (alph1.length : ℤ)).toNat) =
        alph0.indexOf (sequence.getD i ' ') * alph1.length := by
      rw [hfind, ← Nat.cast_mul, Int.toNat_natCast]
    have hvals : (pwm.getD i []).length = alph1.length := by
      apply hrow
      rw [List.getD_eq_getElem _ _ (by omega)]
      exact List.getElem_mem _
    have hW : alph0.indexOf (sequence.getD i ' ') * alph1.length + (pwm.getD i []).length ≤
        jointAlphabetSize alph0 alph1 := by
      rw [hvals]
      unfold jointAlphabetSize
      calc alph0.indexOf (sequence.getD i ' ') * alph1.length + alph1.length
          = (alph0.indexOf (sequence.getD i ' ') + 1) * alph1.length := by ring
        _ ≤ alph0.length * alph1.length := Nat.mul_le_mul_right _ hplt
    have hidx : (join_seq_pwm alph0 alph1 sequence pwm).getD i [] =
        sliceAssign (List.replicate (jointAlphabetSize alph0 alph1) 0)
          (pwm.getD i [])
          (alph0.indexOf (sequence.getD i ' ') * alph1.length) := by
      unfold join_seq_pwm
      rw [List.getD_eq_getElem _ _ (by simp; exact hi)]
      simp only [List.getElem_map, List.getElem_range]
      rw [hpos]
    refine ⟨?_, ?_, ?_⟩
    · rw [hidx, sliceAssign_length _ _ _ (by rw [List.length_replicate]; exact hW)]
      exact List.length_replicate _ _
    · rw [hidx]
      have h := sliceAssign_drop_take (List.replicate (jointAlphabetSize alph0 alph1) 0)
        (pwm.getD i []) (alph0.indexOf (sequence.getD i ' ') * alph1.length)
        (by rw [List.length_replicate]; exact hW)
      rw [hvals] at h
      exact h
    · intro j hjW hout
      rw [hidx]
      rw [sliceAssign_getD_outside _ _ _ j (by rw [List.length_replicate]; exact hW)
        (by rw [List.length_replicate]; exact hjW) (by rw [hvals]; exact hout)]
      rw [List.getD_eq_getElem _ _ (by rw [List.length_replicate]; exact hjW)]
      simp

/-- Concrete instance of the join theorem: `alph0 = "AC"`,
`alph1 = "()"`, the sequence `"CA"` and the hard PWM rows
`[1, 0]` and `[0, 1]`. -/
theorem join_seq_pwm_spec_witness :
    (join_seq_pwm ['A', 'C'] ['(', ')'] ['C', 'A'] [[1, 0], [0, 1]]).length =
        (['C', 'A'] : List Char).length ∧
    ∀ i, i < (['C', 'A'] : List Char).length →
      (((join_seq_pwm ['A', 'C'] ['(', ')'] ['C', 'A'] [[1, 0], [0, 1]]).getD i []).length =
          jointAlphabetSize ['A', 'C'] ['(', ')'] ∧
        (((join_seq_pwm ['A', 'C'] ['(', ')'] ['C', 'A'] [[1, 0], [0, 1]]).getD i []).drop
            ((['A', 'C'] : List Char).indexOf ((['C', 'A'] : List Char).getD i ' ') *
              (['(', ')'] : List Char).length)).take (['(', ')'] : List Char).length =
          ([[1, 0], [0, 1]] : List (List ℚ)).getD i [] ∧
        ∀ j, j < jointAlphabetSize ['A', 'C'] ['(', ')'] →
          (j < (['A', 'C'] : List Char).indexOf ((['C', 'A'] : List Char).getD i ' ') *
              (['(', ')'] : List Char).length ∨
            (['A', 'C'] : List Char).indexOf ((['C', 'A'] : List Char).getD i ' ') *
              (['(', ')'] : List Char).length + (['(', ')'] : List Char).length ≤ j) →
          ((join_seq_pwm ['A', 'C'] ['(', ')'] ['C', 'A'] [[1, 0], [0, 1]]).getD i []).getD
            j 0 = 0) :=
  join_seq_pwm_spec ['A', 'C'] ['(', ')'] ['C', 'A'] [[1, 0], [0, 1]]
    (by decide) (by decide) (by decide)

end Pysster
